import Mathlib

/-!
Verification of the AlgoForge dependency resolver (Kahn's algorithm,
`Course_Schedule.cpp` / `Course_Schedule_II.cpp`) and the distance
comparison snippet (`Find_Closest_Person.cpp`).

The C++ code is embedded shallowly: `vector<vector<int>> pre` becomes a
list of pairs, the adjacency vector and the in-degree vector become
functions built by folding over the same loops the code runs, the FIFO
queue becomes a list (push at the back, pop at the front), and the
unbounded `while (!qu.empty())` loop becomes a fuel-indexed recursion
`kahnRun`; the fuel `n + pre.length` is proved sufficient below, so the
embedded loop always runs to queue exhaustion exactly as the C++ loop
does.  In-degrees are `Int`, matching the C++ `int` (which may go
negative under decrements in ill-behaved runs; part of what is proved is
that it never does).
-/

namespace AlgoForge

/-- Adjacency construction of `canFinish` (`Course_Schedule.cpp` lines
4-7): for each pair `it` of `pre`, `adj[it[0]].push_back(it[1])`. -/
def buildAdjA (pre : List (Nat × Nat)) : Nat → List Nat :=
  pre.foldl (fun adj p => fun v => if v = p.1 then adj v ++ [p.2] else adj v) (fun _ => [])

/-- Adjacency construction of `findOrder` (`Course_Schedule_II.cpp` lines
4-7): for each pair `it` of `pre`, `adj[it[1]].push_back(it[0])`. -/
def buildAdjB (pre : List (Nat × Nat)) : Nat → List Nat :=
  pre.foldl (fun adj p => fun v => if v = p.2 then adj v ++ [p.1] else adj v) (fun _ => [])

/-- Inner loop of the in-degree initialisation: `for (auto it : adj[i]) indegre[it]++`. -/
def bumpAll (l : List Nat) (ind : Nat → Int) : Nat → Int :=
  l.foldl (fun ind2 it => fun j => if j = it then ind2 j + 1 else ind2 j) ind

/-- In-degree initialisation (lines 9-14 of both files): start from the
all-zero table and bump once per adjacency entry, `i` ascending. -/
def initIndeg (n : Nat) (adj : Nat → List Nat) : Nat → Int :=
  (List.range n).foldl (fun ind i => bumpAll (adj i) ind) (fun _ => 0)

/-- Initial ready queue (lines 15-20 of both files): every `i < n` with
`indegre[i] == 0`, in ascending order. -/
def initQueue (n : Nat) (ind : Nat → Int) : List Nat :=
  (List.range n).filter (fun i => ind i == 0)

/-- Neighbour processing of one popped node (the inner `for (auto it :
adj[top])` of the drain loop): decrement `indegre[it]`, and push `it`
when the decremented value is exactly `0`. -/
def relax (ind : Nat → Int) (qu : List Nat) : List Nat → (Nat → Int) × List Nat
  | [] => (ind, qu)
  | it :: rest =>
    relax (fun j => if j = it then ind it - 1 else ind j)
      (if ind it - 1 = 0 then qu ++ [it] else qu) rest

/-- The queue-drain loop (`while (!qu.empty())`, lines 22-30 of both
files), with explicit fuel: pop the front, append it to `topo`, relax
its neighbours.  Returns the final in-degree table, queue and `topo`. -/
def kahnRun (adj : Nat → List Nat) :
    Nat → (Nat → Int) → List Nat → List Nat → (Nat → Int) × List Nat × List Nat
  | 0, ind, qu, topo => (ind, qu, topo)
  | fuel + 1, ind, qu, topo =>
    match qu with
    | [] => (ind, [], topo)
    | top :: rest =>
      let s := relax ind rest (adj top)
      kahnRun adj fuel s.1 s.2 (topo ++ [top])

/-- The whole shared pipeline of lines 9-30 (identical in both files):
in-degrees, initial queue, drain; result is the `topo` vector. -/
def runTopo (n : Nat) (adj : Nat → List Nat) (fuel : Nat) : List Nat :=
  let ind := initIndeg n adj
  (kahnRun adj fuel ind (initQueue n ind) []).2.2

/-- `canFinish` of `Course_Schedule.cpp`: adjacency `it[0] → it[1]`,
return `topo.size() == n`. -/
def canFinish (n : Nat) (pre : List (Nat × Nat)) : Bool :=
  (runTopo n (buildAdjA pre) (n + pre.length)).length == n

/-- `findOrder` of `Course_Schedule_II.cpp`: adjacency `it[1] → it[0]`,
return `topo` when `topo.size() == n`, else the empty vector. -/
def findOrder (n : Nat) (pre : List (Nat × Nat)) : List Nat :=
  let topo := runTopo n (buildAdjB pre) (n + pre.length)
  if topo.length = n then topo else []

/-- `findClosest` of `Find_Closest_Person.cpp`, on mathematical integers
(the claim restricts to inputs whose differences are representable). -/
def findClosest (x y z : Int) : Int :=
  let xzDist := |x - z|
  let yzDist := |y - z|
  if xzDist < yzDist then 1
  else if xzDist > yzDist then 2
  else 0

/-- Input validity: every pair of `pre` lies in `[0, n)` in both
components (the callers' precondition, §4.1 of the design). -/
def validPre (n : Nat) (pre : List (Nat × Nat)) : Prop :=
  ∀ p ∈ pre, p.1 < n ∧ p.2 < n

/-- Acyclicity of the prerequisite graph: no node lies on a cycle of the
pair relation.  (A pair `(a, b)` means "a depends on b"; reversing every
edge of a cycle is again a cycle, so the orientation convention does not
matter for this predicate.) -/
def Acyclic (pre : List (Nat × Nat)) : Prop :=
  ∀ v, ¬ Relation.TransGen (fun a b => (a, b) ∈ pre) v v

/-- Well-formedness of an adjacency function for `n` nodes. -/
def AdjOK (n : Nat) (adj : Nat → List Nat) : Prop :=
  ∀ u v, v ∈ adj u → u < n ∧ v < n

/-- Mathematical in-degree of `v`: number of adjacency entries of value
`v`, counted with multiplicity over all sources. -/
def indeg0 (n : Nat) (adj : Nat → List Nat) (v : Nat) : Int :=
  ∑ u in Finset.range n, ((adj u).count v : Int)

/-- Number of adjacency entries of value `v` whose source was already
popped (appears in `topo`), with multiplicity. -/
def poppedCnt (adj : Nat → List Nat) (topo : List Nat) (v : Nat) : Int :=
  (topo.map (fun u => ((adj u).count v : Int))).sum

/-- The in-degree-table/ready-queue invariants stated by the design for a
drain-loop state `(ind, qu, topo)` (`topo` = items already popped, `qu` =
items currently queued): every tracked count stays nonnegative, no item
is ever queued twice, and an item has been queued (exactly once) precisely
when its count has reached `0`. -/
def TableInv (n : Nat) (ind : Nat → Int) (qu topo : List Nat) : Prop :=
  (∀ v, v < n → 0 ≤ ind v) ∧ (topo ++ qu).Nodup
    ∧ ∀ v, v < n → (v ∈ topo ++ qu ↔ ind v = 0)

/-! ### Characterisation of the adjacency builders -/

theorem foldlAdjA (pre : List (Nat × Nat)) (acc : Nat → List Nat) (v : Nat) :
    (pre.foldl (fun adj p => fun w => if w = p.1 then adj w ++ [p.2] else adj w) acc) v
      = acc v ++ (pre.filter (fun p => p.1 == v)).map Prod.snd := by
  induction pre generalizing acc with
  | nil => simp
  | cons p pre ih =>
    simp only [List.foldl_cons, ih, List.filter_cons]
    by_cases h : p.1 = v
    · simp [h, List.append_assoc]
    · have h' : ¬v = p.1 := fun hv => h hv.symm
      simp [h, h']

theorem foldlAdjB (pre : List (Nat × Nat)) (acc : Nat → List Nat) (v : Nat) :
    (pre.foldl (fun adj p => fun w => if w = p.2 then adj w ++ [p.1] else adj w) acc) v
      = acc v ++ (pre.filter (fun p => p.2 == v)).map Prod.fst := by
  induction pre generalizing acc with
  | nil => simp
  | cons p pre ih =>
    simp only [List.foldl_cons, ih, List.filter_cons]
    by_cases h : p.2 = v
    · simp [h, List.append_assoc]
    · have h' : ¬v = p.2 := fun hv => h hv.symm
      simp [h, h']

theorem buildAdjA_eq (pre : List (Nat × Nat)) (v : Nat) :
    buildAdjA pre v = (pre.filter (fun p => p.1 == v)).map Prod.snd := by
  simpa using foldlAdjA pre (fun _ => []) v

theorem buildAdjB_eq (pre : List (Nat × Nat)) (v : Nat) :
    buildAdjB pre v = (pre.filter (fun p => p.2 == v)).map Prod.fst := by
  simpa using foldlAdjB pre (fun _ => []) v

theorem mem_buildAdjA (pre : List (Nat × Nat)) (u v : Nat) :
    v ∈ buildAdjA pre u ↔ (u, v) ∈ pre := by
  rw [buildAdjA_eq]
  simp only [List.mem_map, List.mem_filter, beq_iff_eq]
  constructor
  · rintro ⟨p, ⟨hp, h1⟩, h2⟩
    have : p = (u, v) := by
      cases p; simp_all
    exact this ▸ hp
  · intro h
    exact ⟨(u, v), ⟨h, rfl⟩, rfl⟩

theorem mem_buildAdjB (pre : List (Nat × Nat)) (u v : Nat) :
    v ∈ buildAdjB pre u ↔ (v, u) ∈ pre := by
  rw [buildAdjB_eq]
  simp only [List.mem_map, List.mem_filter, beq_iff_eq]
  constructor
  · rintro ⟨p, ⟨hp, h1⟩, h2⟩
    have : p = (v, u) := by
      cases p; simp_all
    exact this ▸ hp
  · intro h
    exact ⟨(v, u), ⟨h, rfl⟩, rfl⟩

theorem adjOK_buildAdjA (n : Nat) (pre : List (Nat × Nat)) (hv : validPre n pre) :
    AdjOK n (buildAdjA pre) := by
  intro u v hmem
  have h := (mem_buildAdjA pre u v).1 hmem
  exact hv (u, v) h

theorem adjOK_buildAdjB (n : Nat) (pre : List (Nat × Nat)) (hv : validPre n pre) :
    AdjOK n (buildAdjB pre) := by
  intro u v hmem
  have h := (mem_buildAdjB pre u v).1 hmem
  exact ⟨(hv (v, u) h).2, (hv (v, u) h).1⟩

/-! ### Characterisation of the in-degree initialisation -/

theorem bumpAll_apply (l : List Nat) (ind : Nat → Int) (v : Nat) :
    bumpAll l ind v = ind v + l.count v := by
  induction l generalizing ind with
  | nil => simp [bumpAll]
  | cons a l ih =>
    show bumpAll l (fun j => if j = a then ind j + 1 else ind j) v = _
    rw [ih]
    by_cases h : v = a
    · simp only [h, if_pos rfl, List.count_cons, beq_self_eq_true, if_pos]
      push_cast
      ring
    · have h' : (v == a) = false := by simp [h]
      simp [h, List.count_cons, h']

theorem listRangeSum (f : Nat → Int) (n : Nat) :
    ((List.range n).map f).sum = ∑ u in Finset.range n, f u := by
  induction n with
  | zero => simp
  | succ n ih => rw [List.range_succ, Finset.sum_range_succ, List.map_append, List.sum_append]; simp [ih]

theorem initIndeg_apply (n : Nat) (adj : Nat → List Nat) (v : Nat) :
    initIndeg n adj v = indeg0 n adj v := by
  have aux : ∀ (l : List Nat) (ind : Nat → Int),
      (l.foldl (fun ind i => bumpAll (adj i) ind) ind) v
        = ind v + ((l.map (fun i => ((adj i).count v : Int))).sum) := by
    intro l
    induction l with
    | nil => simp
    | cons a l ih =>
      intro ind
      simp only [List.foldl_cons, List.map_cons, List.sum_cons, ih, bumpAll_apply]
      ring
  unfold initIndeg indeg0
  rw [aux, listRangeSum]
  simp

theorem indeg0_nonneg (n : Nat) (adj : Nat → List Nat) (v : Nat) : 0 ≤ indeg0 n adj v :=
  Finset.sum_nonneg fun _ _ => Int.natCast_nonneg _

/-! ### Facts about `poppedCnt` -/

theorem poppedCnt_nil (adj : Nat → List Nat) (v : Nat) : poppedCnt adj [] v = 0 := rfl

theorem poppedCnt_append (adj : Nat → List Nat) (topo : List Nat) (top v : Nat) :
    poppedCnt adj (topo ++ [top]) v = poppedCnt adj topo v + ((adj top).count v : Int) := by
  simp [poppedCnt]

theorem poppedCnt_toFinset (adj : Nat → List Nat) (topo : List Nat) (v : Nat)
    (hnd : topo.Nodup) :
    poppedCnt adj topo v = ∑ u in topo.toFinset, ((adj u).count v : Int) :=
  (List.sum_toFinset _ hnd).symm

theorem remaining_eq (n : Nat) (adj : Nat → List Nat) (topo : List Nat) (v : Nat)
    (hnd : topo.Nodup) (hlt : ∀ u ∈ topo, u < n) :
    indeg0 n adj v - poppedCnt adj topo v
      = ∑ u in Finset.range n \ topo.toFinset, ((adj u).count v : Int) := by
  have hsub : topo.toFinset ⊆ Finset.range n := by
    intro u hu
    rw [Finset.mem_range]
    exact hlt u (List.mem_toFinset.1 hu)
  rw [poppedCnt_toFinset adj topo v hnd]
  have := Finset.sum_sdiff (f := fun u => ((adj u).count v : Int)) hsub
  unfold indeg0
  linarith

theorem remaining_nonneg (n : Nat) (adj : Nat → List Nat) (topo : List Nat) (v : Nat)
    (hnd : topo.Nodup) (hlt : ∀ u ∈ topo, u < n) :
    0 ≤ indeg0 n adj v - poppedCnt adj topo v := by
  rw [remaining_eq n adj topo v hnd hlt]
  exact Finset.sum_nonneg fun _ _ => Int.natCast_nonneg _

theorem remaining_zero_iff (n : Nat) (adj : Nat → List Nat) (topo : List Nat) (v : Nat)
    (hnd : topo.Nodup) (hlt : ∀ u ∈ topo, u < n) :
    indeg0 n adj v - poppedCnt adj topo v = 0
      ↔ ∀ u, u < n → u ∉ topo → (adj u).count v = 0 := by
  rw [remaining_eq n adj topo v hnd hlt]
  rw [Finset.sum_eq_zero_iff_of_nonneg fun _ _ => Int.natCast_nonneg _]
  constructor
  · intro h u hun hut
    have : u ∈ Finset.range n \ topo.toFinset := by
      simp [Finset.mem_sdiff, Finset.mem_range, hun, List.mem_toFinset, hut]
    have := h u this
    exact_mod_cast this
  · intro h u hu
    rw [Finset.mem_sdiff, Finset.mem_range, List.mem_toFinset] at hu
    exact_mod_cast h u hu.1 hu.2

/-! ### The loop invariant

`MInv n adj r ind qu topo` describes the state in the middle of
processing the neighbour list of the node just appended to `topo`, with
`r` the still-unprocessed suffix of that neighbour list.  At the top of
the drain loop `r = []` and the in-degree table records exactly the
adjacency entries whose source has not been popped yet. -/

structure MInv (n : Nat) (adj : Nat → List Nat) (r : List Nat) (ind : Nat → Int)
    (qu topo : List Nat) : Prop where
  ceq : ∀ v, ind v = indeg0 n adj v - poppedCnt adj topo v + r.count v
  lt : ∀ v ∈ topo ++ qu, v < n
  nd : (topo ++ qu).Nodup
  zif : ∀ v, v < n → (ind v = 0 ↔ v ∈ topo ++ qu)
  etopo : ∀ u v, v ∈ adj u → v ∈ topo ++ qu → u ∈ topo
  ebefore : ∀ u v, v ∈ adj u → ∀ k, v ∈ topo.take k → u ∈ topo.take k ∧ u ≠ v

/-- The invariant at the top of the drain loop. -/
def KInv (n : Nat) (adj : Nat → List Nat) (ind : Nat → Int) (qu topo : List Nat) : Prop :=
  MInv n adj [] ind qu topo

theorem relax_preserve (n : Nat) (adj : Nat → List Nat) (hadj : AdjOK n adj)
    (topo : List Nat) :
    ∀ (r : List Nat) (ind : Nat → Int) (qu : List Nat),
      MInv n adj r ind qu topo → (∀ x ∈ r, x < n) →
      MInv n adj [] (relax ind qu r).1 (relax ind qu r).2 topo := by
  intro r
  induction r with
  | nil =>
    intro ind qu hM _
    exact hM
  | cons it rest ih =>
    intro ind qu hM hr
    have hit : it < n := hr it (List.mem_cons_self _ _)
    have htopond : topo.Nodup := hM.nd.of_append_left
    have htopolt : ∀ u ∈ topo, u < n := fun u hu => hM.lt u (List.mem_append_left _ hu)
    have hA0 : ∀ v, 0 ≤ indeg0 n adj v - poppedCnt adj topo v := fun v =>
      remaining_nonneg n adj topo v htopond htopolt
    have hcnt : ((it :: rest).count it : Int) = (rest.count it : Int) + 1 := by
      simp [List.count_cons]
    -- `ind it` is strictly positive, so `it` is not yet in `topo ++ qu`
    have hpos : 0 < ind it := by
      have := hM.ceq it
      have := hA0 it
      rw [hcnt] at *
      omega
    have hnotin : it ∉ topo ++ qu := by
      intro hin
      have := (hM.zif it hit).2 hin
      omega
    have hstep : relax ind qu (it :: rest)
        = relax (fun j => if j = it then ind it - 1 else ind j)
            (if ind it - 1 = 0 then qu ++ [it] else qu) rest := rfl
    rw [hstep]
    refine ih _ _ ?_ (fun x hx => hr x (List.mem_cons_of_mem _ hx))
    constructor
    -- ceq
    · intro v
      by_cases hv : v = it
      · subst hv
        have hc := hM.ceq v
        have hgoal : ind v - 1 = indeg0 n adj v - poppedCnt adj topo v + (rest.count v : Int) := by
          rw [hc, hcnt]; ring
        simpa using hgoal
      · have heq : ((it :: rest).count v : Int) = (rest.count v : Int) := by
          have h' : (v == it) = false := by simp [hv]
          have h'' : ¬it = v := fun h => hv h.symm
          simp [List.count_cons, h', h'']
        have := hM.ceq v
        simp only [if_neg hv]
        rw [this, heq]
    -- lt
    · intro v hv
      by_cases hpush : ind it - 1 = 0
      · rw [if_pos hpush] at hv
        rcases List.mem_append.1 hv with h | h
        · exact hM.lt v (List.mem_append_left _ h)
        · rcases List.mem_append.1 h with h | h
          · exact hM.lt v (List.mem_append_right _ h)
          · rcases List.mem_singleton.1 h with rfl
            exact hit
      · rw [if_neg hpush] at hv
        exact hM.lt v hv
    -- nd
    · by_cases hpush : ind it - 1 = 0
      · rw [if_pos hpush, ← List.append_assoc]
        exact List.Nodup.append hM.nd (List.nodup_singleton it)
          (by simpa [List.disjoint_singleton] using hnotin)
      · rw [if_neg hpush]
        exact hM.nd
    -- zif
    · intro v hvn
      by_cases hv : v = it
      · subst hv
        by_cases hpush : ind v - 1 = 0
        · constructor
          · intro _
            refine List.mem_append_right _ ?_
            rw [if_pos hpush]
            exact List.mem_append_right _ (List.mem_singleton_self v)
          · intro _
            simpa using hpush
        · rw [if_neg hpush]
          constructor
          · intro h0
            have h1 : ind v - 1 = 0 := by simpa using h0
            exact absurd h1 hpush
          · intro hmem
            exact absurd hmem hnotin
      · rw [if_neg hv]
        by_cases hpush : ind it - 1 = 0
        · rw [if_pos hpush]
          constructor
          · intro h0
            have := (hM.zif v hvn).1 h0
            rcases List.mem_append.1 this with h | h
            · exact List.mem_append_left _ h
            · exact List.mem_append_right _ (List.mem_append_left _ h)
          · intro hmem
            refine (hM.zif v hvn).2 ?_
            rcases List.mem_append.1 hmem with h | h
            · exact List.mem_append_left _ h
            · rcases List.mem_append.1 h with h | h
              · exact List.mem_append_right _ h
              · exact absurd (List.mem_singleton.1 h) hv
        · rw [if_neg hpush]
          exact hM.zif v hvn
    -- etopo
    · intro u v hvadj hvmem
      by_cases hpush : ind it - 1 = 0
      · rw [if_pos hpush, ← List.append_assoc] at hvmem
        rcases List.mem_append.1 hvmem with h | h
        · exact hM.etopo u v hvadj h
        · rcases List.mem_singleton.1 h with rfl
          -- the freshly pushed node: its remaining in-degree is zero
          have hceq := hM.ceq v
          rw [hcnt] at hceq
          have hr0 : (0 : Int) ≤ (rest.count v : Int) := Int.natCast_nonneg _
          have hAz : indeg0 n adj v - poppedCnt adj topo v = 0 := by
            have := hA0 v
            omega
          have hall := (remaining_zero_iff n adj topo v htopond htopolt).1 hAz
          have hun : u < n := (hadj u v hvadj).1
          by_contra hut
          have := hall u hun hut
          exact absurd hvadj (List.count_eq_zero.1 this)
      · rw [if_neg hpush] at hvmem
        exact hM.etopo u v hvadj hvmem
    -- ebefore
    · exact hM.ebefore

theorem kahn_step_preserve (n : Nat) (adj : Nat → List Nat) (hadj : AdjOK n adj)
    (ind : Nat → Int) (top : Nat) (rest topo : List Nat)
    (hK : KInv n adj ind (top :: rest) topo) :
    KInv n adj (relax ind rest (adj top)).1 (relax ind rest (adj top)).2 (topo ++ [top]) := by
  have hlist : (topo ++ [top]) ++ rest = topo ++ (top :: rest) := by simp
  have htopnotin : top ∉ topo := by
    have hd := List.disjoint_of_nodup_append hK.nd
    exact fun h => hd h (List.mem_cons_self _ _)
  refine relax_preserve n adj hadj (topo ++ [top]) (adj top) ind rest
    ?_ (fun x hx => (hadj top x hx).2)
  constructor
  · intro v
    have := hK.ceq v
    simp only [poppedCnt_append, List.count_nil, Nat.cast_zero, add_zero] at this ⊢
    rw [this]
    ring
  · intro v hv
    exact hK.lt v (hlist ▸ hv)
  · exact hlist ▸ hK.nd
  · intro v hvn
    rw [hK.zif v hvn, ← hlist]
  · intro u v hvadj hvmem
    exact List.mem_append_left _ (hK.etopo u v hvadj (hlist ▸ hvmem))
  · intro u v hvadj k hvtake
    rw [List.take_append_eq_append_take] at hvtake ⊢
    by_cases hk : k ≤ topo.length
    · have h0 : k - topo.length = 0 := Nat.sub_eq_zero_of_le hk
      rw [h0] at hvtake ⊢
      simp only [List.take_zero, List.append_nil] at hvtake ⊢
      exact hK.ebefore u v hvadj k hvtake
    · have hlen : topo.length ≤ k := Nat.le_of_not_le hk
      have hpos : 1 ≤ k - topo.length := by omega
      have htk : topo.take k = topo := List.take_of_length_le hlen
      have hsk : [top].take (k - topo.length) = [top] := List.take_of_length_le (by simpa using hpos)
      rw [htk, hsk] at hvtake ⊢
      rcases List.mem_append.1 hvtake with hvt | hvt
      · have hin : v ∈ topo.take topo.length := by
          rw [List.take_length]; exact hvt
        have := hK.ebefore u v hvadj topo.length hin
        rw [List.take_length] at this
        exact ⟨List.mem_append_left _ this.1, this.2⟩
      · rcases List.mem_singleton.1 hvt with rfl
        have hu : u ∈ topo := hK.etopo u v hvadj
          (List.mem_append_right _ (List.mem_cons_self _ _))
        refine ⟨List.mem_append_left _ hu, ?_⟩
        intro he
        exact htopnotin (he ▸ hu)

theorem kahn_run_inv (n : Nat) (adj : Nat → List Nat) (hadj : AdjOK n adj) :
    ∀ (fuel : Nat) (ind : Nat → Int) (qu topo : List Nat), KInv n adj ind qu topo →
      KInv n adj (kahnRun adj fuel ind qu topo).1 (kahnRun adj fuel ind qu topo).2.1
        (kahnRun adj fuel ind qu topo).2.2 := by
  intro fuel
  induction fuel with
  | zero => intro ind qu topo hK; exact hK
  | succ f ih =>
    intro ind qu topo hK
    match qu with
    | [] => exact hK
    | top :: rest => exact ih _ _ _ (kahn_step_preserve n adj hadj ind top rest topo hK)

theorem remaining_zero_all (n : Nat) (adj : Nat → List Nat) (hadj : AdjOK n adj)
    (v : Nat) (h : indeg0 n adj v = 0) : ∀ u, v ∉ adj u := by
  intro u hu
  have hun : u < n := (hadj u v hu).1
  have := (remaining_zero_iff n adj [] v (List.nodup_nil) (by simp)).1 (by
    simpa [poppedCnt_nil] using h)
  exact absurd hu (List.count_eq_zero.1 (this u hun (by simp)))

theorem kahn_init_inv (n : Nat) (adj : Nat → List Nat) (hadj : AdjOK n adj) :
    KInv n adj (initIndeg n adj) (initQueue n (initIndeg n adj)) [] := by
  constructor
  · intro v
    rw [initIndeg_apply]
    simp [poppedCnt_nil]
  · intro v hv
    rw [List.nil_append] at hv
    exact List.mem_range.1 (List.mem_filter.1 hv).1
  · rw [List.nil_append]
    exact (List.nodup_range n).filter _
  · intro v hvn
    rw [List.nil_append]
    simp [initQueue, List.mem_filter, List.mem_range, hvn]
  · intro u v hvadj hvmem
    exfalso
    rw [List.nil_append] at hvmem
    have h0 : initIndeg n adj v = 0 := by
      have := (List.mem_filter.1 hvmem).2
      simpa using this
    rw [initIndeg_apply] at h0
    exact remaining_zero_all n adj hadj v h0 u hvadj
  · intro u v _ k hvtake
    simp at hvtake

/-! ### Termination: the chosen fuel drains the queue completely -/

/-- Potential of a loop state: queue length plus total positive
remaining in-degree.  Strictly decreases at each drain-loop step. -/
def phi (n : Nat) (ind : Nat → Int) (qu : List Nat) : Nat :=
  qu.length + ∑ v in Finset.range n, (ind v).toNat

theorem sum_toNat_pointwise (n : Nat) (ind : Nat → Int) (it : Nat) (hit : it < n) (x : Int) :
    ∑ v in Finset.range n, ((fun j => if j = it then x else ind j) v).toNat
      = ∑ v in (Finset.range n).erase it, (ind v).toNat + x.toNat := by
  have hmem : it ∈ Finset.range n := Finset.mem_range.2 hit
  rw [← Finset.sum_erase_add (Finset.range n) _ hmem]
  congr 1
  · refine Finset.sum_congr rfl fun v hv => ?_
    have : v ≠ it := Finset.ne_of_mem_erase hv
    simp [this]
  · simp

theorem relax_phi (n : Nat) :
    ∀ (r : List Nat) (ind : Nat → Int) (qu : List Nat), (∀ x ∈ r, x < n) →
      phi n (relax ind qu r).1 (relax ind qu r).2 ≤ phi n ind qu := by
  intro r
  induction r with
  | nil => intro ind qu _; exact Nat.le_refl _
  | cons it rest ih =>
    intro ind qu hr
    have hit : it < n := hr it (List.mem_cons_self _ _)
    have hstep : relax ind qu (it :: rest)
        = relax (fun j => if j = it then ind it - 1 else ind j)
            (if ind it - 1 = 0 then qu ++ [it] else qu) rest := rfl
    rw [hstep]
    refine le_trans (ih _ _ (fun x hx => hr x (List.mem_cons_of_mem _ hx))) ?_
    unfold phi
    rw [sum_toNat_pointwise n ind it hit]
    have hsum : ∑ v in Finset.range n, (ind v).toNat
        = ∑ v in (Finset.range n).erase it, (ind v).toNat + (ind it).toNat := by
      rw [Finset.sum_erase_add (Finset.range n) _ (Finset.mem_range.2 hit)]
    rw [hsum]
    by_cases hpush : ind it - 1 = 0
    · rw [if_pos hpush]
      have h1 : ind it = 1 := by omega
      simp [h1]
      omega
    · rw [if_neg hpush]
      have : (ind it - 1).toNat ≤ (ind it).toNat := by omega
      omega

theorem kahn_run_qu_empty (n : Nat) (adj : Nat → List Nat)
    (hok : ∀ u x, x ∈ adj u → x < n) :
    ∀ (fuel : Nat) (ind : Nat → Int) (qu topo : List Nat), phi n ind qu ≤ fuel →
      (kahnRun adj fuel ind qu topo).2.1 = [] := by
  intro fuel
  induction fuel with
  | zero =>
    intro ind qu topo hphi
    have h0 : qu.length = 0 := by
      unfold phi at hphi
      omega
    rw [List.length_eq_zero.1 h0]
    rfl
  | succ f ih =>
    intro ind qu topo hphi
    match qu with
    | [] => rfl
    | top :: rest =>
      refine ih _ _ _ ?_
      have h1 : phi n ind (top :: rest) = phi n ind rest + 1 := by
        unfold phi
        simp [Nat.add_comm, Nat.add_assoc, Nat.add_left_comm]
      have h2 := relax_phi n (adj top) ind rest (fun x hx => hok top x hx)
      unfold phi at *
      omega

/-! ### From the final state to acyclicity (and back) -/

theorem mem_take_indexOf (l : List Nat) (a : Nat) : a ∈ l → a ∈ l.take (l.indexOf a + 1) := by
  induction l with
  | nil => intro h; simp at h
  | cons b l ih =>
    intro h
    by_cases hba : b = a
    · subst hba
      rw [List.indexOf_cons]
      simp
    · have hb : (b == a) = false := by simp [hba]
      rw [List.indexOf_cons, hb]
      simp only [cond_false]
      rw [List.take_succ_cons]
      have ha : a ∈ l := by
        rcases List.mem_cons.1 h with h1 | h1
        · exact absurd h1.symm hba
        · exact h1
      exact List.mem_cons_of_mem _ (ih ha)

theorem indexOf_lt_of_mem_take (l : List Nat) (a : Nat) :
    ∀ k, a ∈ l.take k → l.indexOf a < k := by
  induction l with
  | nil => intro k h; simp at h
  | cons b l ih =>
    intro k h
    match k with
    | 0 => simp at h
    | k + 1 =>
      rw [List.take_succ_cons] at h
      by_cases hba : b = a
      · subst hba
        rw [List.indexOf_cons]
        simp
      · have hb : (b == a) = false := by simp [hba]
        rw [List.indexOf_cons, hb]
        simp only [cond_false]
        have ha : a ∈ l.take k := by
          rcases List.mem_cons.1 h with h1 | h1
          · exact absurd h1.symm hba
          · exact h1
        exact Nat.succ_lt_succ (ih k ha)

theorem topo_cover (n : Nat) (topo : List Nat) (hnd : topo.Nodup)
    (hlt : ∀ v ∈ topo, v < n) (hlen : topo.length = n) : ∀ v, v < n → v ∈ topo := by
  have hsub : topo.toFinset ⊆ Finset.range n := fun v hv =>
    Finset.mem_range.2 (hlt v (List.mem_toFinset.1 hv))
  have hcard : topo.toFinset.card = n := by
    rw [List.toFinset_card_of_nodup hnd, hlen]
  have heq : topo.toFinset = Finset.range n :=
    Finset.eq_of_subset_of_card_le hsub (by rw [hcard, Finset.card_range])
  intro v hv
  rw [← List.mem_toFinset, heq]
  exact Finset.mem_range.2 hv

theorem kinv_edge_lt (n : Nat) (adj : Nat → List Nat) (ind : Nat → Int)
    (qu topo : List Nat) (hK : KInv n adj ind qu topo) (u v : Nat)
    (hedge : v ∈ adj u) (hv : v ∈ topo) :
    u ∈ topo ∧ topo.indexOf u < topo.indexOf v := by
  have h1 := hK.ebefore u v hedge (topo.indexOf v + 1) (mem_take_indexOf topo v hv)
  have hu : u ∈ topo := List.take_subset _ _ h1.1
  have hlt : topo.indexOf u < topo.indexOf v + 1 := indexOf_lt_of_mem_take topo u _ h1.1
  have hne : topo.indexOf u ≠ topo.indexOf v := fun he =>
    h1.2 ((List.indexOf_inj hu hv).1 he)
  exact ⟨hu, by omega⟩

theorem transGen_idx_lt (n : Nat) (adj : Nat → List Nat) (ind : Nat → Int)
    (qu topo : List Nat) (hadj : AdjOK n adj) (hK : KInv n adj ind qu topo)
    (hcov : ∀ v, v < n → v ∈ topo) :
    ∀ a b, Relation.TransGen (fun u w => w ∈ adj u) a b →
      topo.indexOf a < topo.indexOf b := by
  intro a b h
  induction h with
  | single hedge =>
    exact (kinv_edge_lt n adj ind qu topo hK _ _ hedge
      (hcov _ (hadj _ _ hedge).2)).2
  | tail hab hbc ih =>
    have := (kinv_edge_lt n adj ind qu topo hK _ _ hbc
      (hcov _ (hadj _ _ hbc).2)).2
    omega

theorem complete_acyclic (n : Nat) (adj : Nat → List Nat) (ind : Nat → Int)
    (qu topo : List Nat) (hadj : AdjOK n adj) (hK : KInv n adj ind qu topo)
    (hcov : ∀ v, v < n → v ∈ topo) :
    ∀ v, ¬ Relation.TransGen (fun u w => w ∈ adj u) v v := fun v hv =>
  absurd (transGen_idx_lt n adj ind qu topo hadj hK hcov v v hv) (lt_irrefl _)

theorem stuck_cycle (n : Nat) (adj : Nat → List Nat) (ind : Nat → Int)
    (topo : List Nat) (hadj : AdjOK n adj) (hK : KInv n adj ind [] topo)
    (hlen : topo.length ≠ n) :
    ∃ v, Relation.TransGen (fun u w => w ∈ adj u) v v := by
  classical
  have hnd : topo.Nodup := by simpa using hK.nd
  have hlt : ∀ v ∈ topo, v < n := fun v hv => hK.lt v (by simpa using hv)
  have hsub : topo.toFinset ⊆ Finset.range n := fun v hv =>
    Finset.mem_range.2 (hlt v (List.mem_toFinset.1 hv))
  have hSne : (Finset.range n \ topo.toFinset).Nonempty := by
    rw [Finset.sdiff_nonempty]
    intro hcon
    have heq : topo.toFinset = Finset.range n := Finset.Subset.antisymm hsub hcon
    have hc := congrArg Finset.card heq
    rw [List.toFinset_card_of_nodup hnd, Finset.card_range] at hc
    exact hlen hc
  have hstep : ∀ v, v ∈ Finset.range n \ topo.toFinset →
      ∃ u, u ∈ Finset.range n \ topo.toFinset ∧ v ∈ adj u := by
    intro v hvS
    rw [Finset.mem_sdiff, Finset.mem_range, List.mem_toFinset] at hvS
    obtain ⟨hvn, hvt⟩ := hvS
    have hne : ind v ≠ 0 := by
      intro h0
      exact hvt (by simpa using (hK.zif v hvn).1 h0)
    have hval := hK.ceq v
    simp only [List.count_nil, Nat.cast_zero, add_zero] at hval
    have hge := remaining_nonneg n adj topo v hnd hlt
    have hpos : 0 < indeg0 n adj v - poppedCnt adj topo v := by omega
    rw [remaining_eq n adj topo v hnd hlt] at hpos
    by_contra hcon
    push_neg at hcon
    have hz : ∑ u in Finset.range n \ topo.toFinset, ((adj u).count v : Int) = 0 := by
      refine Finset.sum_eq_zero fun u hu => ?_
      have hnot := hcon u hu
      have hcz : (adj u).count v = 0 := List.count_eq_zero.2 hnot
      exact_mod_cast hcz
    omega
  obtain ⟨v0, hv0⟩ := hSne
  choose pick hpickS hpickE using hstep
  let g : Nat → {x : Nat // x ∈ Finset.range n \ topo.toFinset} := fun k =>
    Nat.rec (motive := fun _ => {x : Nat // x ∈ Finset.range n \ topo.toFinset})
      ⟨v0, hv0⟩ (fun _ p => ⟨pick p.1 p.2, hpickS p.1 p.2⟩) k
  have hgE : ∀ k, (g k).1 ∈ adj ((g (k + 1)).1) := fun k => hpickE (g k).1 (g k).2
  have hchain : ∀ d k,
      Relation.TransGen (fun u w => w ∈ adj u) ((g (k + d + 1)).1) ((g k).1) := by
    intro d
    induction d with
    | zero => intro k; exact Relation.TransGen.single (hgE k)
    | succ d ihd =>
      intro k
      exact Relation.TransGen.head (hgE (k + d + 1)) (ihd k)
  have key : ∀ i j : Nat, i < j → (g i).1 = (g j).1 →
      ∃ v, Relation.TransGen (fun u w => w ∈ adj u) v v := by
    intro i j hij heq
    refine ⟨(g i).1, ?_⟩
    have harith : i + (j - i - 1) + 1 = j := by omega
    have hc := hchain (j - i - 1) i
    rw [harith] at hc
    rw [← heq] at hc
    exact hc
  have hmaps : ∀ k ∈ Finset.range (n + 1), (g k).1 ∈ Finset.range n := by
    intro k _
    have := (g k).2
    rw [Finset.mem_sdiff] at this
    exact this.1
  have hcard : (Finset.range n).card < (Finset.range (n + 1)).card := by simp
  obtain ⟨i, _, j, _, hij, hfij⟩ :=
    Finset.exists_ne_map_eq_of_card_lt_of_maps_to hcard hmaps
  rcases Nat.lt_or_ge i j with hlt2 | hge
  · exact key i j hlt2 hfij
  · have hlt3 : j < i := by omega
    exact key j i hlt3 hfij.symm

/-! ### The chosen fuel `n + pre.length` is sufficient -/

theorem length_eq_sum_count (n : Nat) :
    ∀ l : List Nat, (∀ x ∈ l, x < n) → ∑ v in Finset.range n, l.count v = l.length := by
  intro l
  induction l with
  | nil => intro _; simp
  | cons a l ih =>
    intro h
    have ha : a ∈ Finset.range n := Finset.mem_range.2 (h a (List.mem_cons_self _ _))
    have htail := ih fun x hx => h x (List.mem_cons_of_mem _ hx)
    have hcc : ∀ v, (a :: l).count v = l.count v + if v = a then 1 else 0 := by
      intro v
      by_cases hv : v = a
      · subst hv; simp [List.count_cons]
      · simp [List.count_cons, hv]
    calc ∑ v in Finset.range n, (a :: l).count v
        = ∑ v in Finset.range n, (l.count v + if v = a then 1 else 0) :=
          Finset.sum_congr rfl fun v _ => hcc v
      _ = (∑ v in Finset.range n, l.count v)
            + ∑ v in Finset.range n, (if v = a then 1 else 0) := Finset.sum_add_distrib
      _ = l.length + 1 := by
          rw [htail, Finset.sum_ite_eq' (Finset.range n) a fun _ => 1]
          simp [ha]
      _ = (a :: l).length := by simp

theorem sum_toNat_indeg0 (n : Nat) (adj : Nat → List Nat)
    (hok : ∀ u x, x ∈ adj u → x < n) :
    ∑ v in Finset.range n, (initIndeg n adj v).toNat
      = ∑ u in Finset.range n, (adj u).length := by
  have h1 : ∀ v, (initIndeg n adj v).toNat = ∑ u in Finset.range n, (adj u).count v := by
    intro v
    rw [initIndeg_apply]
    unfold indeg0
    rw [← Nat.cast_sum]
    exact Int.toNat_natCast _
  calc ∑ v in Finset.range n, (initIndeg n adj v).toNat
      = ∑ v in Finset.range n, ∑ u in Finset.range n, (adj u).count v :=
        Finset.sum_congr rfl fun v _ => h1 v
    _ = ∑ u in Finset.range n, ∑ v in Finset.range n, (adj u).count v := Finset.sum_comm
    _ = ∑ u in Finset.range n, (adj u).length :=
        Finset.sum_congr rfl fun u _ => length_eq_sum_count n (adj u) fun x hx => hok u x hx

theorem phi_init_le (n : Nat) (adj : Nat → List Nat)
    (hok : ∀ u x, x ∈ adj u → x < n) :
    phi n (initIndeg n adj) (initQueue n (initIndeg n adj))
      ≤ n + ∑ u in Finset.range n, (adj u).length := by
  unfold phi
  have h1 : (initQueue n (initIndeg n adj)).length ≤ n := by
    unfold initQueue
    calc ((List.range n).filter _).length ≤ (List.range n).length := List.length_filter_le _ _
      _ = n := List.length_range n
  have h2 := sum_toNat_indeg0 n adj hok
  omega

theorem sum_len_filterA (n : Nat) :
    ∀ pre : List (Nat × Nat), validPre n pre →
      ∑ u in Finset.range n, (pre.filter (fun p => p.1 == u)).length = pre.length := by
  intro pre
  induction pre with
  | nil => intro _; simp
  | cons p pre ih =>
    intro h
    have hp : p.1 ∈ Finset.range n := Finset.mem_range.2 (h p (List.mem_cons_self _ _)).1
    have htail := ih fun q hq => h q (List.mem_cons_of_mem _ hq)
    have hcc : ∀ u, ((p :: pre).filter (fun q => q.1 == u)).length
        = (pre.filter (fun q => q.1 == u)).length + if u = p.1 then 1 else 0 := by
      intro u
      rw [List.filter_cons]
      by_cases hu : p.1 = u
      · simp [hu]
      · have hu' : ¬u = p.1 := fun he => hu he.symm
        simp [hu, hu']
    calc ∑ u in Finset.range n, ((p :: pre).filter (fun q => q.1 == u)).length
        = ∑ u in Finset.range n,
            ((pre.filter (fun q => q.1 == u)).length + if u = p.1 then 1 else 0) :=
          Finset.sum_congr rfl fun u _ => hcc u
      _ = pre.length + 1 := by
          rw [Finset.sum_add_distrib, htail,
            Finset.sum_ite_eq' (Finset.range n) p.1 fun _ => 1]
          simp [hp]
      _ = (p :: pre).length := by simp

theorem sum_len_filterB (n : Nat) :
    ∀ pre : List (Nat × Nat), validPre n pre →
      ∑ u in Finset.range n, (pre.filter (fun p => p.2 == u)).length = pre.length := by
  intro pre
  induction pre with
  | nil => intro _; simp
  | cons p pre ih =>
    intro h
    have hp : p.2 ∈ Finset.range n := Finset.mem_range.2 (h p (List.mem_cons_self _ _)).2
    have htail := ih fun q hq => h q (List.mem_cons_of_mem _ hq)
    have hcc : ∀ u, ((p :: pre).filter (fun q => q.2 == u)).length
        = (pre.filter (fun q => q.2 == u)).length + if u = p.2 then 1 else 0 := by
      intro u
      rw [List.filter_cons]
      by_cases hu : p.2 = u
      · simp [hu]
      · have hu' : ¬u = p.2 := fun he => hu he.symm
        simp [hu, hu']
    calc ∑ u in Finset.range n, ((p :: pre).filter (fun q => q.2 == u)).length
        = ∑ u in Finset.range n,
            ((pre.filter (fun q => q.2 == u)).length + if u = p.2 then 1 else 0) :=
          Finset.sum_congr rfl fun u _ => hcc u
      _ = pre.length + 1 := by
          rw [Finset.sum_add_distrib, htail,
            Finset.sum_ite_eq' (Finset.range n) p.2 fun _ => 1]
          simp [hp]
      _ = (p :: pre).length := by simp

theorem fuelA_ok (n : Nat) (pre : List (Nat × Nat)) (hv : validPre n pre) :
    phi n (initIndeg n (buildAdjA pre)) (initQueue n (initIndeg n (buildAdjA pre)))
      ≤ n + pre.length := by
  have hok : ∀ u x, x ∈ buildAdjA pre u → x < n := fun u x hx =>
    (adjOK_buildAdjA n pre hv u x hx).2
  have h1 := phi_init_le n (buildAdjA pre) hok
  have h2 : ∑ u in Finset.range n, (buildAdjA pre u).length = pre.length := by
    have hcg : ∀ u, (buildAdjA pre u).length = (pre.filter (fun p => p.1 == u)).length := by
      intro u
      rw [buildAdjA_eq]
      exact List.length_map _ _
    rw [Finset.sum_congr rfl fun u _ => hcg u]
    exact sum_len_filterA n pre hv
  omega

theorem fuelB_ok (n : Nat) (pre : List (Nat × Nat)) (hv : validPre n pre) :
    phi n (initIndeg n (buildAdjB pre)) (initQueue n (initIndeg n (buildAdjB pre)))
      ≤ n + pre.length := by
  have hok : ∀ u x, x ∈ buildAdjB pre u → x < n := fun u x hx =>
    (adjOK_buildAdjB n pre hv u x hx).2
  have h1 := phi_init_le n (buildAdjB pre) hok
  have h2 : ∑ u in Finset.range n, (buildAdjB pre u).length = pre.length := by
    have hcg : ∀ u, (buildAdjB pre u).length = (pre.filter (fun p => p.2 == u)).length := by
      intro u
      rw [buildAdjB_eq]
      exact List.length_map _ _
    rw [Finset.sum_congr rfl fun u _ => hcg u]
    exact sum_len_filterB n pre hv
  omega

/-! ### Main generic theorems about `runTopo` -/

theorem runTopo_spec (n : Nat) (adj : Nat → List Nat) (fuel : Nat) (hadj : AdjOK n adj)
    (hfuel : phi n (initIndeg n adj) (initQueue n (initIndeg n adj)) ≤ fuel) :
    (runTopo n adj fuel).length = n
      ↔ ∀ v, ¬ Relation.TransGen (fun u w => w ∈ adj u) v v := by
  have hok : ∀ u x, x ∈ adj u → x < n := fun u x hx => (hadj u x hx).2
  have hKf := kahn_run_inv n adj hadj fuel (initIndeg n adj)
    (initQueue n (initIndeg n adj)) [] (kahn_init_inv n adj hadj)
  have hq := kahn_run_qu_empty n adj hok fuel (initIndeg n adj)
    (initQueue n (initIndeg n adj)) [] hfuel
  rw [hq] at hKf
  have hnd : (runTopo n adj fuel).Nodup := by
    have := hKf.nd
    simpa [runTopo] using this
  have hlt : ∀ v ∈ runTopo n adj fuel, v < n := fun v hv =>
    hKf.lt v (by simpa [runTopo] using hv)
  constructor
  · intro hlen
    have hcov := topo_cover n (runTopo n adj fuel) hnd hlt hlen
    exact complete_acyclic n adj _ [] _ hadj hKf hcov
  · intro hacyc
    by_contra hlen
    obtain ⟨v, hcyc⟩ := stuck_cycle n adj _ _ hadj hKf hlen
    exact hacyc v hcyc

theorem runTopo_len_le (n : Nat) (adj : Nat → List Nat) (fuel : Nat) (hadj : AdjOK n adj) :
    (runTopo n adj fuel).length ≤ n := by
  have hKf := kahn_run_inv n adj hadj fuel (initIndeg n adj)
    (initQueue n (initIndeg n adj)) [] (kahn_init_inv n adj hadj)
  have hnd : (runTopo n adj fuel).Nodup := hKf.nd.of_append_left
  have hlt : ∀ v ∈ runTopo n adj fuel, v < n := fun v hv =>
    hKf.lt v (List.mem_append_left _ hv)
  have hsub : (runTopo n adj fuel).toFinset ⊆ Finset.range n := fun v hv =>
    Finset.mem_range.2 (hlt v (List.mem_toFinset.1 hv))
  calc (runTopo n adj fuel).length = (runTopo n adj fuel).toFinset.card :=
        (List.toFinset_card_of_nodup hnd).symm
    _ ≤ (Finset.range n).card := Finset.card_le_card hsub
    _ = n := Finset.card_range n

theorem runTopo_order (n : Nat) (adj : Nat → List Nat) (fuel : Nat) (hadj : AdjOK n adj)
    (hlen : (runTopo n adj fuel).length = n) (u v : Nat) (hedge : v ∈ adj u) :
    (runTopo n adj fuel).indexOf u < (runTopo n adj fuel).indexOf v := by
  have hKf := kahn_run_inv n adj hadj fuel (initIndeg n adj)
    (initQueue n (initIndeg n adj)) [] (kahn_init_inv n adj hadj)
  have hnd : (runTopo n adj fuel).Nodup := hKf.nd.of_append_left
  have hlt : ∀ x ∈ runTopo n adj fuel, x < n := fun x hx =>
    hKf.lt x (List.mem_append_left _ hx)
  have hcov := topo_cover n (runTopo n adj fuel) hnd hlt hlen
  exact (kinv_edge_lt n adj _ _ _ hKf u v hedge (hcov v (hadj u v hedge).2)).2

/-! ### Transfer between adjacency-level and pair-level acyclicity -/

theorem acyclicA_iff (pre : List (Nat × Nat)) :
    (∀ v, ¬ Relation.TransGen (fun u w => w ∈ buildAdjA pre u) v v) ↔ Acyclic pre := by
  unfold Acyclic
  refine forall_congr' fun v => not_congr
    ⟨Relation.TransGen.mono fun x y h => (mem_buildAdjA pre x y).1 h,
     Relation.TransGen.mono fun x y h => (mem_buildAdjA pre x y).2 h⟩

theorem acyclicB_iff (pre : List (Nat × Nat)) :
    (∀ v, ¬ Relation.TransGen (fun u w => w ∈ buildAdjB pre u) v v) ↔ Acyclic pre := by
  unfold Acyclic
  refine forall_congr' fun v => not_congr ?_
  have h1 : Relation.TransGen (fun u w => w ∈ buildAdjB pre u) v v
      ↔ Relation.TransGen (Function.swap fun a b => (a, b) ∈ pre) v v :=
    ⟨Relation.TransGen.mono fun x y h => (mem_buildAdjB pre x y).1 h,
     Relation.TransGen.mono fun x y h => (mem_buildAdjB pre x y).2 h⟩
  rw [h1, Relation.transGen_swap]

/-! ### Core correctness of the two C++ entry points -/

theorem canFinish_iff_acyclic (n : Nat) (pre : List (Nat × Nat)) (hv : validPre n pre) :
    canFinish n pre = true ↔ Acyclic pre := by
  unfold canFinish
  rw [beq_iff_eq]
  rw [runTopo_spec n (buildAdjA pre) (n + pre.length) (adjOK_buildAdjA n pre hv)
    (fuelA_ok n pre hv)]
  exact acyclicA_iff pre

theorem findOrder_len_iff (n : Nat) (pre : List (Nat × Nat)) (hv : validPre n pre) :
    (findOrder n pre).length = n ↔ Acyclic pre := by
  have hiff := (runTopo_spec n (buildAdjB pre) (n + pre.length)
    (adjOK_buildAdjB n pre hv) (fuelB_ok n pre hv)).trans (acyclicB_iff pre)
  unfold findOrder
  by_cases h : (runTopo n (buildAdjB pre) (n + pre.length)).length = n
  · rw [if_pos h]
    exact iff_of_true h (hiff.1 h)
  · rw [if_neg h]
    simp only [List.length_nil]
    constructor
    · intro h0
      exfalso
      apply h
      have hle := runTopo_len_le n (buildAdjB pre) (n + pre.length) (adjOK_buildAdjB n pre hv)
      omega
    · intro hac
      exact absurd (hiff.2 hac) h

theorem findOrder_eq_runTopo (n : Nat) (pre : List (Nat × Nat)) (hv : validPre n pre)
    (hac : Acyclic pre) :
    findOrder n pre = runTopo n (buildAdjB pre) (n + pre.length) := by
  unfold findOrder
  rw [if_pos]
  exact (runTopo_spec n (buildAdjB pre) (n + pre.length)
    (adjOK_buildAdjB n pre hv) (fuelB_ok n pre hv)).2 ((acyclicB_iff pre).2 hac)

theorem findOrder_nil_of_cyclic (n : Nat) (pre : List (Nat × Nat)) (hv : validPre n pre)
    (hac : ¬Acyclic pre) : findOrder n pre = [] := by
  unfold findOrder
  rw [if_neg]
  intro hlen
  exact hac (((runTopo_spec n (buildAdjB pre) (n + pre.length)
    (adjOK_buildAdjB n pre hv) (fuelB_ok n pre hv)).trans (acyclicB_iff pre)).1 hlen)

theorem findOrder_respects (n : Nat) (pre : List (Nat × Nat)) (hv : validPre n pre)
    (hac : Acyclic pre) (a b : Nat) (hab : (a, b) ∈ pre) :
    (findOrder n pre).indexOf b < (findOrder n pre).indexOf a := by
  have hlen : (runTopo n (buildAdjB pre) (n + pre.length)).length = n :=
    (runTopo_spec n (buildAdjB pre) (n + pre.length)
      (adjOK_buildAdjB n pre hv) (fuelB_ok n pre hv)).2 ((acyclicB_iff pre).2 hac)
  rw [findOrder_eq_runTopo n pre hv hac]
  exact runTopo_order n (buildAdjB pre) (n + pre.length) (adjOK_buildAdjB n pre hv)
    hlen b a ((mem_buildAdjB pre b a).2 hab)

/-! ### The run on an empty prerequisite list -/

theorem initIndeg_emptyAdj (n v : Nat) : initIndeg n (fun _ => []) v = 0 := by
  rw [initIndeg_apply]
  unfold indeg0
  simp

theorem initQueue_emptyAdj (n : Nat) :
    initQueue n (initIndeg n (fun _ => [])) = List.range n := by
  unfold initQueue
  refine List.filter_eq_self.2 fun i _ => ?_
  simp [initIndeg_emptyAdj]

theorem kahnRun_emptyAdj :
    ∀ (fuel : Nat) (ind : Nat → Int) (qu topo : List Nat), qu.length ≤ fuel →
      (kahnRun (fun _ => []) fuel ind qu topo).2.2 = topo ++ qu := by
  intro fuel
  induction fuel with
  | zero =>
    intro ind qu topo h
    have hq : qu = [] := List.length_eq_zero.1 (Nat.le_zero.1 h)
    subst hq
    simp [kahnRun]
  | succ f ih =>
    intro ind qu topo h
    match qu with
    | [] => simp [kahnRun]
    | top :: rest =>
      show (kahnRun (fun _ => []) f ind rest (topo ++ [top])).2.2 = topo ++ (top :: rest)
      rw [ih ind rest (topo ++ [top]) (Nat.le_of_succ_le_succ (by simpa using h))]
      simp

theorem runTopo_nilpre_A (n : Nat) :
    runTopo n (buildAdjA []) (n + ([] : List (Nat × Nat)).length) = List.range n := by
  have hB : buildAdjA ([] : List (Nat × Nat)) = fun _ => [] := rfl
  unfold runTopo
  show (kahnRun (buildAdjA []) (n + ([] : List (Nat × Nat)).length)
      (initIndeg n (buildAdjA [])) (initQueue n (initIndeg n (buildAdjA []))) []).2.2
    = List.range n
  rw [hB, initQueue_emptyAdj n, kahnRun_emptyAdj _ _ _ _ (by simp)]
  simp

theorem runTopo_nilpre_B (n : Nat) :
    runTopo n (buildAdjB []) (n + ([] : List (Nat × Nat)).length) = List.range n := by
  have hB : buildAdjB ([] : List (Nat × Nat)) = fun _ => [] := rfl
  unfold runTopo
  show (kahnRun (buildAdjB []) (n + ([] : List (Nat × Nat)).length)
      (initIndeg n (buildAdjB [])) (initQueue n (initIndeg n (buildAdjB []))) []).2.2
    = List.range n
  rw [hB, initQueue_emptyAdj n, kahnRun_emptyAdj _ _ _ _ (by simp)]
  simp

theorem canFinish_nilpre (n : Nat) : canFinish n [] = true := by
  unfold canFinish
  rw [runTopo_nilpre_A n]
  simp

theorem findOrder_nilpre (n : Nat) : findOrder n [] = List.range n := by
  unfold findOrder
  rw [runTopo_nilpre_B n]
  simp

/-! ### Duplicate edges do not change acyclicity -/

theorem acyclic_dup_iff (pre : List (Nat × Nat)) (p : Nat × Nat) (hp : p ∈ pre) :
    Acyclic (pre ++ [p]) ↔ Acyclic pre := by
  unfold Acyclic
  refine forall_congr' fun v => not_congr ⟨?_, ?_⟩
  · refine Relation.TransGen.mono fun x y h => ?_
    rcases List.mem_append.1 h with h1 | h1
    · exact h1
    · have := List.mem_singleton.1 h1
      rw [this]
      exact hp
  · exact Relation.TransGen.mono fun x y h => List.mem_append_left _ h

theorem validPre_dup (n : Nat) (pre : List (Nat × Nat)) (p : Nat × Nat)
    (hv : validPre n pre) (hp : p ∈ pre) : validPre n (pre ++ [p]) := by
  intro q hq
  rcases List.mem_append.1 hq with h1 | h1
  · exact hv q h1
  · have := List.mem_singleton.1 h1
    rw [this]
    exact hv p hp

theorem kinv_tableInv (n : Nat) (adj : Nat → List Nat) (ind : Nat → Int)
    (qu topo : List Nat) (hK : KInv n adj ind qu topo) : TableInv n ind qu topo := by
  refine ⟨?_, hK.nd, fun v hv => (hK.zif v hv).symm⟩
  intro v hv
  have hceq := hK.ceq v
  simp only [List.count_nil, Nat.cast_zero, add_zero] at hceq
  have := remaining_nonneg n adj topo v hK.nd.of_append_left
    (fun u hu => hK.lt u (List.mem_append_left _ hu))
  omega

/-! ### The claims -/

/-- C1: for every `n ≥ 0` and every prerequisite list whose pairs lie in
`[0, n)`, `canFinish n pre` returns `true` iff the prerequisite graph on
`n` nodes is acyclic, and `findOrder n pre` returns a sequence of length
`n` if the graph is acyclic and the empty sequence otherwise. -/
theorem claim_C1 (n : Nat) (pre : List (Nat × Nat)) (hv : validPre n pre) :
    (canFinish n pre = true ↔ Acyclic pre)
      ∧ (Acyclic pre → (findOrder n pre).length = n)
      ∧ (¬Acyclic pre → findOrder n pre = []) :=
  ⟨canFinish_iff_acyclic n pre hv,
   fun hac => (findOrder_len_iff n pre hv).2 hac,
   fun hac => findOrder_nil_of_cyclic n pre hv hac⟩

/-- Witness for C1 at the concrete cyclic input `n = 1`, `pre = [(0,0)]`. -/
theorem claim_C1_witness :
    canFinish 1 [(0, 0)] = false ∧ findOrder 1 [(0, 0)] = [] := by
  have h := claim_C1 1 [(0, 0)] (by unfold validPre; decide)
  have hcyc : ¬ Acyclic [((0:Nat), (0:Nat))] := fun h' =>
    h' 0 (Relation.TransGen.single (by simp))
  refine ⟨?_, h.2.2 hcyc⟩
  cases hcf : canFinish 1 [(0, 0)] with
  | false => rfl
  | true => exact absurd (h.1.1 hcf) hcyc

/-- C2: on every acyclic valid input, the sequence returned by
`findOrder` places the prerequisite `b` strictly before `a` for every
pair `(a, b)` of the input list. -/
theorem claim_C2 (n : Nat) (pre : List (Nat × Nat)) (hv : validPre n pre)
    (hac : Acyclic pre) (a b : Nat) (hab : (a, b) ∈ pre) :
    (findOrder n pre).indexOf b < (findOrder n pre).indexOf a :=
  findOrder_respects n pre hv hac a b hab

/-- Witness for C2 at the concrete acyclic input `n = 2`, `pre = [(1,0)]`. -/
theorem claim_C2_witness :
    (findOrder 2 [(1, 0)]).indexOf 0 < (findOrder 2 [(1, 0)]).indexOf 1 := by
  have hac : Acyclic [((1:Nat), (0:Nat))] := by
    intro v hv
    have hshape : ∀ a b : Nat,
        Relation.TransGen (fun a b => (a, b) ∈ [((1:Nat), (0:Nat))]) a b
          → a = 1 ∧ b = 0 := by
      intro a b h
      induction h with
      | single h1 => simpa using h1
      | tail hab hbc ih =>
        simp at hbc
        omega
    have := hshape v v hv
    omega
  exact claim_C2 2 [(1, 0)] (by unfold validPre; decide) hac 1 0 (by decide)

/-- C3 counterexample: the claim states that BOTH variants record, for a
pair `(a, b)`, the directed edge `b → a`; but for the pair `(0, 1)` the
`canFinish` adjacency does not contain `0` in the list of node `1` (it
records `0 → 1` instead), refuting the claim at this concrete input. -/
theorem claim_C3_cex :
    ((0, 1) ∈ ([((0:Nat), (1:Nat))] : List (Nat × Nat)))
      ∧ 0 ∉ buildAdjA [((0:Nat), (1:Nat))] 1 := by decide

/-- C3 amended: `findOrder` records the edge `b → a` (so completing `b`
decrements `a`'s count), while `canFinish` records the reversed edge
`a → b` for the same pair. -/
theorem claim_C3_amended (pre : List (Nat × Nat)) (a b : Nat) (hab : (a, b) ∈ pre) :
    a ∈ buildAdjB pre b ∧ b ∈ buildAdjA pre a :=
  ⟨(mem_buildAdjB pre b a).2 hab, (mem_buildAdjA pre a b).2 hab⟩

/-- Witness for the amended C3 at the pair `(0, 1)`. -/
theorem claim_C3_witness :
    0 ∈ buildAdjB [((0:Nat), (1:Nat))] 1 ∧ 1 ∈ buildAdjA [((0:Nat), (1:Nat))] 0 :=
  claim_C3_amended [(0, 1)] 0 1 (by decide)

/-- C4 counterexample: the two variants do NOT perform the identical
traversal.  On `n = 2`, `pre = [(1, 0)]` the drain loop of `canFinish`
(adjacency `buildAdjA`) visits `1` before `0`, while the drain loop of
`findOrder` (adjacency `buildAdjB`) visits `0` before `1`. -/
theorem claim_C4_cex :
    runTopo 2 (buildAdjA [((1:Nat), (0:Nat))]) (2 + 1) = [1, 0]
      ∧ runTopo 2 (buildAdjB [((1:Nat), (0:Nat))]) (2 + 1) = [0, 1] := by decide

/-- C4 amended: `canFinish` returns `true` iff `findOrder` returns a
sequence of length `n`; the two variants run the same queue-drain loop
but on oppositely-oriented adjacency structures, so their traversal
orders differ in general while the feasibility verdicts always agree;
they also differ in the value returned (boolean vs sequence, `false` vs
empty sequence). -/
theorem claim_C4_amended (n : Nat) (pre : List (Nat × Nat)) (hv : validPre n pre) :
    canFinish n pre = true ↔ (findOrder n pre).length = n :=
  (canFinish_iff_acyclic n pre hv).trans (findOrder_len_iff n pre hv).symm

/-- Witness for the amended C4 at `n = 2`, `pre = [(1, 0)]`. -/
theorem claim_C4_witness :
    canFinish 2 [(1, 0)] = true ↔ (findOrder 2 [(1, 0)]).length = 2 :=
  claim_C4_amended 2 [(1, 0)] (by unfold validPre; decide)

/-- C5: cycle detection is reported only through the return value (the
embedded functions are total and return normally): for the two-cycle
`n = 2`, `pre = [(0,1), (1,0)]`, `canFinish` returns `false` and
`findOrder` returns the empty sequence, and for the self-loop `n = 1`,
`pre = [(0,0)]`, likewise — never a length-1 success. -/
theorem claim_C5 :
    canFinish 2 [(0, 1), (1, 0)] = false
      ∧ findOrder 2 [(0, 1), (1, 0)] = []
      ∧ canFinish 1 [(0, 0)] = false
      ∧ findOrder 1 [(0, 0)] = []
      ∧ findOrder 1 [(0, 0)] ≠ [0] := by decide

/-- C6: for every `n ≥ 0` and the empty prerequisite list, `canFinish`
returns `true` and `findOrder` returns the identity ordering
`[0, 1, ..., n-1]`; in particular the returned sequence is a permutation
of `[0, n)`. -/
theorem claim_C6 (n : Nat) :
    canFinish n [] = true ∧ findOrder n [] = List.range n
      ∧ (findOrder n []).Perm (List.range n) :=
  ⟨canFinish_nilpre n, findOrder_nilpre n, by
    rw [findOrder_nilpre n]⟩

/-- C7: appending a duplicate of a pair already present does not change
feasibility: `canFinish` gives the same boolean, and `findOrder` returns
a length-`n` sequence on the duplicated list iff it does on the original. -/
theorem claim_C7 (n : Nat) (pre : List (Nat × Nat)) (p : Nat × Nat)
    (hv : validPre n pre) (hp : p ∈ pre) :
    canFinish n (pre ++ [p]) = canFinish n pre
      ∧ ((findOrder n (pre ++ [p])).length = n ↔ (findOrder n pre).length = n) := by
  have hv' := validPre_dup n pre p hv hp
  have h1 := canFinish_iff_acyclic n pre hv
  have h2 := canFinish_iff_acyclic n (pre ++ [p]) hv'
  have h3 := findOrder_len_iff n pre hv
  have h4 := findOrder_len_iff n (pre ++ [p]) hv'
  have hd := acyclic_dup_iff pre p hp
  constructor
  · have hbb : (canFinish n (pre ++ [p]) = true) ↔ (canFinish n pre = true) := by
      rw [h2, h1, hd]
    cases hA : canFinish n (pre ++ [p]) <;> cases hB : canFinish n pre <;> simp_all
  · rw [h3, h4]
    exact hd

/-- Witness for C7: duplicating the pair `(1, 0)` in `n = 2`. -/
theorem claim_C7_witness :
    canFinish 2 ([(1, 0)] ++ [(1, 0)]) = canFinish 2 [(1, 0)]
      ∧ ((findOrder 2 ([(1, 0)] ++ [(1, 0)])).length = 2
          ↔ (findOrder 2 [(1, 0)]).length = 2) :=
  claim_C7 2 [(1, 0)] (1, 0) (by unfold validPre; decide) (by decide)

/-- C8: at every point of the queue-drain loop of either variant (state
after `k` iterations, any `k`), every in-degree entry is `≥ 0`, no item
is queued twice, and an item has entered the popped-or-queued set exactly
when its count is `0`. -/
theorem claim_C8 (n : Nat) (pre : List (Nat × Nat)) (hv : validPre n pre) (k : Nat) :
    TableInv n
      (kahnRun (buildAdjA pre) k (initIndeg n (buildAdjA pre))
        (initQueue n (initIndeg n (buildAdjA pre))) []).1
      (kahnRun (buildAdjA pre) k (initIndeg n (buildAdjA pre))
        (initQueue n (initIndeg n (buildAdjA pre))) []).2.1
      (kahnRun (buildAdjA pre) k (initIndeg n (buildAdjA pre))
        (initQueue n (initIndeg n (buildAdjA pre))) []).2.2
    ∧ TableInv n
      (kahnRun (buildAdjB pre) k (initIndeg n (buildAdjB pre))
        (initQueue n (initIndeg n (buildAdjB pre))) []).1
      (kahnRun (buildAdjB pre) k (initIndeg n (buildAdjB pre))
        (initQueue n (initIndeg n (buildAdjB pre))) []).2.1
      (kahnRun (buildAdjB pre) k (initIndeg n (buildAdjB pre))
        (initQueue n (initIndeg n (buildAdjB pre))) []).2.2 := by
  constructor
  · exact kinv_tableInv n (buildAdjA pre) _ _ _
      (kahn_run_inv n (buildAdjA pre) (adjOK_buildAdjA n pre hv) k _ _ _
        (kahn_init_inv n (buildAdjA pre) (adjOK_buildAdjA n pre hv)))
  · exact kinv_tableInv n (buildAdjB pre) _ _ _
      (kahn_run_inv n (buildAdjB pre) (adjOK_buildAdjB n pre hv) k _ _ _
        (kahn_init_inv n (buildAdjB pre) (adjOK_buildAdjB n pre hv)))

/-- Witness for C8 at `n = 2`, `pre = [(1, 0)]`, after one loop step. -/
theorem claim_C8_witness :
    TableInv 2
      (kahnRun (buildAdjA [(1, 0)]) 1 (initIndeg 2 (buildAdjA [(1, 0)]))
        (initQueue 2 (initIndeg 2 (buildAdjA [(1, 0)]))) []).1
      (kahnRun (buildAdjA [(1, 0)]) 1 (initIndeg 2 (buildAdjA [(1, 0)]))
        (initQueue 2 (initIndeg 2 (buildAdjA [(1, 0)]))) []).2.1
      (kahnRun (buildAdjA [(1, 0)]) 1 (initIndeg 2 (buildAdjA [(1, 0)]))
        (initQueue 2 (initIndeg 2 (buildAdjA [(1, 0)]))) []).2.2
    ∧ TableInv 2
      (kahnRun (buildAdjB [(1, 0)]) 1 (initIndeg 2 (buildAdjB [(1, 0)]))
        (initQueue 2 (initIndeg 2 (buildAdjB [(1, 0)]))) []).1
      (kahnRun (buildAdjB [(1, 0)]) 1 (initIndeg 2 (buildAdjB [(1, 0)]))
        (initQueue 2 (initIndeg 2 (buildAdjB [(1, 0)]))) []).2.1
      (kahnRun (buildAdjB [(1, 0)]) 1 (initIndeg 2 (buildAdjB [(1, 0)]))
        (initQueue 2 (initIndeg 2 (buildAdjB [(1, 0)]))) []).2.2 :=
  claim_C8 2 [(1, 0)] (by unfold validPre; decide) 1

/-- C9: for all integers (the differences being exactly representable by
assumption), `findClosest x y z` returns `1` when `|x - z| < |y - z|`,
`2` when `|x - z| > |y - z|`, and `0` when the two distances are equal. -/
theorem claim_C9 (x y z : Int) :
    (|x - z| < |y - z| → findClosest x y z = 1)
      ∧ (|y - z| < |x - z| → findClosest x y z = 2)
      ∧ (|x - z| = |y - z| → findClosest x y z = 0) := by
  have hdef : findClosest x y z
      = if |x - z| < |y - z| then 1 else if |x - z| > |y - z| then 2 else 0 := rfl
  refine ⟨fun h => ?_, fun h => ?_, fun h => ?_⟩
  · rw [hdef, if_pos h]
  · rw [hdef, if_neg (not_lt.2 (le_of_lt h)), if_pos h]
  · rw [hdef, if_neg (not_lt.2 (le_of_eq h)), if_neg (not_lt.2 (le_of_eq h.symm))]

/-- Witness for C9 at three concrete inputs, one per branch. -/
theorem claim_C9_witness :
    findClosest 1 10 2 = 1 ∧ findClosest 10 1 2 = 2 ∧ findClosest 3 1 2 = 0 :=
  ⟨(claim_C9 1 10 2).1 (by decide), (claim_C9 10 1 2).2.1 (by decide),
   (claim_C9 3 1 2).2.2 (by decide)⟩

end AlgoForge
